import Mathlib

/-!
Verification development for the ARLO condition-grouping and optimization
engine.  The definitions below are a shallow embedding of the Python source:

* `app/architect/architect.py` — condition grouping, satisfiable-group
  partitioning, quality-weight calculation and normalization;
* `app/services/clustering_service.py` — adaptive K-Means clustering entry
  points (the K-Means fit itself is an external numeric routine and is
  abstracted as an oracle parameter);
* `app/services/optimizer_service.py` — Greedy and ILP pattern selection
  over the scoring matrix (the ILP solver is modelled as an optimal
  selection predicate);
* `app/models/matrix.py`, `app/models/concern.py`, `app/models/decision.py`,
  `app/models/requirement.py` — the data model.

Python dicts are modelled as insertion-ordered association lists, machine
integers as `Int`/`Nat`, and the embedding/LLM/K-Means collaborators as
explicit oracle parameters.
-/

namespace ARLO

/-! ### Association lists (model of insertion-ordered Python dicts) -/

/-- Dict lookup: first binding of `key`, `d.get(key)`-style. -/
def alGet {κ α : Type} [DecidableEq κ] : List (κ × α) → κ → Option α
  | [], _ => none
  | (k, v) :: rest, key => if k = key then some v else alGet rest key

/-- Dict store `d[key] = v`: update in place if present, else append
(Python dicts preserve insertion order). -/
def alSet {κ α : Type} [DecidableEq κ] : List (κ × α) → κ → α → List (κ × α)
  | [], key, v => [(key, v)]
  | (k, w) :: rest, key, v =>
    if k = key then (k, v) :: rest else (k, w) :: alSet rest key v

/-- Accumulate a value into a list keeping first occurrences, used to model
iteration over a Python `set` built from already-ordered values. -/
def addUnique (l : List String) (x : String) : List String :=
  if x ∈ l then l else l ++ [x]

/-! ### Python string primitives

`str.strip()`, `str.strip("()")`, `str.split(",")`, `re.split` on the
delimiter `\)\s*,\s*\(`, and the builtin `int()`, modelled for ASCII
inputs (the oracle responses handled by the parser). -/

/-- ASCII whitespace stripped by `str.strip()` and matched by `\s`. -/
def pyIsSpace (c : Char) : Bool :=
  c == ' ' || c == '\t' || c == '\n' || c == '\r' || c == '\x0b' || c == '\x0c'

/-- Characters stripped by `str.strip("()")`. -/
def isParen (c : Char) : Bool :=
  c == '(' || c == ')'

/-- `str.strip(chars)`: drop leading and trailing characters satisfying `p`. -/
def pyStrip (p : Char → Bool) (l : List Char) : List Char :=
  ((l.dropWhile p).reverse.dropWhile p).reverse

/-- Worker for `str.split(",")`. -/
def splitCommaAux : List Char → List Char → List (List Char)
  | [], buf => [buf.reverse]
  | c :: rest, buf =>
    if c = ',' then buf.reverse :: splitCommaAux rest []
    else splitCommaAux rest (c :: buf)

/-- `s.split(",")` on character lists (keeps empty segments, like Python). -/
def splitComma (l : List Char) : List (List Char) :=
  splitCommaAux l []

/-- Try to match the regex delimiter `\)\s*,\s*\(` at the head of the list;
returns the remainder after the match.  `\s*` is maximal-munch here, which
agrees with backtracking since `,` and `(` are not whitespace. -/
def matchDelim (l : List Char) : Option (List Char) :=
  match l with
  | c1 :: rest =>
    if c1 = ')' then
      match rest.dropWhile pyIsSpace with
      | c2 :: r2 =>
        if c2 = ',' then
          match r2.dropWhile pyIsSpace with
          | c3 :: r3 => if c3 = '(' then some r3 else none
          | [] => none
        else none
      | [] => none
    else none
  | [] => none

/-- Worker for `re.split(r"\)\s*,\s*\(", s)`: scan the string, cutting at
each delimiter match (leftmost, non-overlapping).  The `fuel` argument
only makes the recursion structural (so that concrete inputs evaluate
inside the kernel); every step consumes at least one character, so the
out-of-fuel clause is unreachable whenever `fuel` is at least the input
length — `reSplitAux_fuel` below proves the result is fuel-independent. -/
def reSplitAux : Nat → List Char → List Char → List (List Char)
  | _, [], buf => [buf.reverse]
  | 0, c :: rest, buf => [buf.reverse ++ c :: rest]
  | fuel + 1, c :: rest, buf =>
    match matchDelim (c :: rest) with
    | some rem => buf.reverse :: reSplitAux fuel rem []
    | none => reSplitAux fuel rest (c :: buf)

/-- `re.split(r"\)\s*,\s*\(", s)` on character lists. -/
def reSplit (l : List Char) : List (List Char) :=
  reSplitAux l.length l []

/-- Decimal digit value of an ASCII character. -/
def digitVal (c : Char) : Option Nat :=
  if '0' ≤ c ∧ c ≤ '9' then some (c.toNat - '0'.toNat) else none

/-- Digits after the first one, allowing single underscores between digits
(Python's `int()` accepts `1_000` but not `1__0`, `_1` or `1_`). -/
def parseDigitsRest : List Char → Nat → Option Nat
  | [], acc => some acc
  | c :: rest, acc =>
    if c = '_' then
      match rest with
      | c2 :: rest2 =>
        match digitVal c2 with
        | some d => parseDigitsRest rest2 (acc * 10 + d)
        | none => none
      | [] => none
    else
      match digitVal c with
      | some d => parseDigitsRest rest (acc * 10 + d)
      | none => none

/-- A nonempty run of digits (with legal underscores) as a number. -/
def pyIntOfDigits : List Char → Option Nat
  | [] => none
  | c :: rest =>
    match digitVal c with
    | some d => parseDigitsRest rest d
    | none => none

/-- Model of the builtin `int(s)` for ASCII inputs: strip whitespace,
optional sign, nonempty digit run; `none` models the `ValueError`. -/
def pyInt (l : List Char) : Option Int :=
  match pyStrip pyIsSpace l with
  | '+' :: rest => (pyIntOfDigits rest).map (fun n => (n : Int))
  | '-' :: rest => (pyIntOfDigits rest).map (fun n => -(n : Int))
  | t => (pyIntOfDigits t).map (fun n => (n : Int))

/-! ### Data model

`app/models/requirement.py`, `app/models/concern.py`, `app/models/matrix.py`,
`app/models/decision.py`.  Fields not consumed by the verified components
(timestamps, parse flags, metric triggers, embedding cache) are omitted. -/

/-- `Requirement` (the fields the grouping/weighting stages read). -/
structure Requirement where
  id : Nat
  description : String
  is_architecturally_significant : Bool
  quality_attributes : List String
  condition_text : String
deriving DecidableEq, Repr

/-- `ConditionGroup`: nominal condition plus its requirements. -/
structure ConditionGroup where
  nominal_condition : String
  requirements : List Requirement
deriving DecidableEq, Repr

/-- `SatisfiableGroup`: condition groups that can hold simultaneously. -/
structure SatisfiableGroup where
  condition_groups : List ConditionGroup
deriving DecidableEq, Repr

/-- One row of the scoring matrix: quality attribute → signed score,
insertion-ordered like the Python dict. -/
abbrev Row := List (String × Int)

/-- `Matrix`: `_rows` maps pattern → row, `row_groups` maps pattern →
decision category; both insertion-ordered dicts. -/
structure Matrix where
  _rows : List (String × Row)
  row_groups : List (String × String)
deriving DecidableEq, Repr

/-- `Matrix.get_rows`: iterate over all rows. -/
def Matrix.get_rows (m : Matrix) : List (String × Row) :=
  m._rows

/-- `Matrix.get_rows_by_group`: the rows whose pattern belongs to `group`,
in `row_groups` order.  The Python body reads `self._rows[row_key]`, which
raises `KeyError` when the pattern has no row; the model substitutes the
empty row, and the well-formedness hypotheses of the theorems below rule
that case out. -/
def Matrix.get_rows_by_group (m : Matrix) (group : String) : List (String × Row) :=
  (m.row_groups.filter (fun pr => pr.2 = group)).map
    (fun pr => (pr.1, (alGet m._rows pr.1).getD []))

/-- `Matrix.get_all_groups`: the distinct category names.  Python returns a
`set`, whose iteration order is unspecified; the model fixes first-seen
order — every property proved about it is order-independent. -/
def Matrix.get_all_groups (m : Matrix) : List String :=
  (m.row_groups.map Prod.snd).foldl addUnique []

/-- `Decision` (`app/models/decision.py`).  Python initializes the greedy
score to `float("-inf")`; the model keeps scores in `Int` and represents
the not-yet-assigned state by an `Option` at the use site. -/
structure Decision where
  arch_pattern_name : String
  selected_pattern : String
  score : Int
  satisfied_qualities : List (String × Int)
  unsatisfied_qualities : List (String × Int)
deriving DecidableEq, Repr

/-- `QualityWeightsMode` enum. -/
inductive QualityWeightsMode where
  | equallyImportant
  | allRequired
  | inferred
  | provided
deriving DecidableEq, Repr

/-! ### Satisfiability partitioner

`Architect._parse_satisfiable_groups_response` and
`Architect._generate_satisfiable_groups` (architect.py lines 234-301). -/

/-- Placeholder used for the (unreachable, range-checked) list indexing
`self.condition_groups[i - 1]`. -/
def defaultConditionGroup : ConditionGroup :=
  ⟨"", []⟩

/-- One token of a segment: `id_str.strip().strip("()")` then `int(...)`. -/
def parse_token (tok : List Char) : Option Int :=
  pyInt (pyStrip isParen (pyStrip pyIsSpace tok))

/-- A token kept as a 1-based index: parses and lies in `[1, n]`. -/
def parse_index (n : Nat) (tok : List Char) : Option Nat :=
  match parse_token tok with
  | some i => if 1 ≤ i ∧ i ≤ (n : Int) then some i.toNat else none
  | none => none

/-- The valid indices of one segment, in token order. -/
def segment_ids (n : Nat) (seg : List Char) : List Nat :=
  (splitComma seg).filterMap (parse_index n)

/-- `Architect._parse_satisfiable_groups_response`: strip whitespace and
outer parentheses, split on `\)\s*,\s*\(`, and turn every segment with at
least one valid index into a `SatisfiableGroup` (appended in order). -/
def parse_satisfiable_groups_response (cgs : List ConditionGroup)
    (response : String) : List SatisfiableGroup :=
  let cleaned := pyStrip isParen (pyStrip pyIsSpace response.data)
  (reSplit cleaned).filterMap (fun seg =>
    let ids := segment_ids cgs.length seg
    if ids.isEmpty then none
    else some ⟨ids.map (fun i => cgs.getD (i - 1) defaultConditionGroup)⟩)

/-- The retry loop of `_generate_satisfiable_groups`: `attempts i` is the
outcome of the `i`-th oracle call (`none` models a raised exception, which
the source catches and logs).  After `fuel` failed or empty attempts the
fallback single group of all condition groups is produced. -/
def try_attempts (cgs : List ConditionGroup) (attempts : Nat → Option String) :
    Nat → Nat → List SatisfiableGroup
  | 0, _ => [⟨cgs⟩]
  | fuel + 1, i =>
    match attempts i with
    | none => try_attempts cgs attempts fuel (i + 1)
    | some s =>
      let sgs := parse_satisfiable_groups_response cgs s
      if sgs.isEmpty then try_attempts cgs attempts fuel (i + 1) else sgs

/-- `Architect._generate_satisfiable_groups`: with ≤ 1 condition groups no
oracle call is made; otherwise up to 3 attempts, then the fallback. -/
def generate_satisfiable_groups (cgs : List ConditionGroup)
    (attempts : Nat → Option String) : List SatisfiableGroup :=
  if cgs.length ≤ 1 then
    if cgs.isEmpty then [] else [⟨cgs⟩]
  else
    try_attempts cgs attempts 3 0

/-! ### Weight calculator

`Architect._calculate_quality_weights` / `_normalize_weights`
(architect.py lines 303-336). -/

/-- Python truthiness of an optional dict: `None` and `{}` are falsy. -/
def truthy {α : Type} : Option (List α) → Bool
  | none => false
  | some l => !l.isEmpty

/-- `Architect._calculate_quality_weights`.  Faithful to the source:
* the `PROVIDED` branch is taken only when `provided_weights` is truthy
  (nonempty) — otherwise control falls through;
* the `EQUALLY_IMPORTANT` branch `break`s out of the row loop after the
  first row, so only the first row's columns receive weight 1;
* every other mode (including `ALL_REQUIRED`) runs the inferred counting. -/
def calculate_quality_weights (matrix : Matrix) (sg : SatisfiableGroup)
    (mode : QualityWeightsMode) (provided_weights : Option (List (String × Int))) :
    List (String × Int) :=
  if mode = .provided ∧ truthy provided_weights then
    provided_weights.getD []
  else if mode = .equallyImportant then
    match matrix.get_rows with
    | [] => []
    | (_, columns) :: _ => columns.foldl (fun w qv => alSet w qv.1 1) []
  else
    sg.condition_groups.foldl (fun w cg =>
      cg.requirements.foldl (fun w r =>
        r.quality_attributes.foldl (fun w q =>
          alSet w q ((alGet w q).getD 0 + 1)) w) w) []

/-- `Architect._normalize_weights`: `(v * 100) // total` with Python floor
division (`Int.fdiv`); a zero total returns the input unchanged. -/
def normalize_weights (weights : List (String × Int)) : List (String × Int) :=
  let total := (weights.map Prod.snd).sum
  if total = 0 then weights
  else weights.map (fun kv => (kv.1, Int.fdiv (kv.2 * 100) total))

/-! ### Clustering engine

`ClusteringService` (clustering_service.py).  Embedding vectors are
modelled over `ℚ` (the claims settled here never touch the numeric K-Means
branch, which is the external scikit-learn fit and is abstracted as an
oracle). -/

/-- Oracle for the external scikit-learn K-Means fit with a fixed seed:
`inertia k data` is `KMeans(n_clusters=k).fit(data).inertia_` and
`fitPredict k data` is `fit_predict`'s assignment list. -/
structure KMeansOracle where
  inertia : Nat → List (List ℚ) → ℚ
  fitPredict : Nat → List (List ℚ) → List Nat

/-- `ClusteringService._find_elbow_point`: with ≤ 2 WCSS entries pick
index 0; otherwise scan interior indices for the single largest decrease
`wcss[i-1] - wcss[i]`, first seen wins (the running maximum starts at
`float("-inf")`, modelled by the `Option` accumulator). -/
def find_elbow_point (wcss_list : List ℚ) : Nat :=
  if wcss_list.length ≤ 2 then 0
  else
    let scan := (List.range (wcss_list.length - 2)).foldl (fun acc j =>
      let i := j + 1
      let diff := wcss_list.getD (i - 1) 0 - wcss_list.getD i 0
      match acc with
      | none => some (diff, i)
      | some (md, idx) => if diff > md then some (diff, i) else some (md, idx)) none
    match scan with
    | none => 0
    | some (_, idx) => idx

/-- `ClusteringService.cluster_conditions`: identity assignment for fewer
than 2 vectors or when the candidate k-range `[min_k, max_k]` collapses;
otherwise elbow-selected K-Means (via the oracle).  `max_cluster_size` is
accepted but never read, exactly as in the source. -/
def cluster_conditions (km : KMeansOracle) (embeddings : List (List ℚ))
    (max_clusters : Nat := 20) (max_cluster_size : Nat := 30) : List Nat :=
  if embeddings.length < 2 then List.range embeddings.length
  else
    let n_samples := embeddings.length
    let min_k := max 2 (n_samples / 10)
    let max_k := min max_clusters (min (n_samples / 5) (n_samples - 1))
    if max_k ≤ min_k then List.range n_samples
    else
      let wcss_list := (List.range (max_k + 1 - min_k)).map
        (fun j => km.inertia (min_k + j) embeddings)
      let optimal_k := min_k + find_elbow_point wcss_list
      km.fitPredict optimal_k embeddings

/-- `ClusteringService.map_to_clusters`: `zip(items, cluster_assignments)`
grouped into an insertion-ordered dict keyed by cluster id.  `zip`
truncates to the shorter list, exactly as in Python. -/
def map_to_clusters {α : Type} (items : List α) (cluster_assignments : List Nat) :
    List (Nat × List α) :=
  (items.zip cluster_assignments).foldl (fun cluster_map ia =>
    match alGet cluster_map ia.2 with
    | some l => alSet cluster_map ia.2 (l ++ [ia.1])
    | none => cluster_map ++ [(ia.2, [ia.1])]) []

/-! ### Condition grouper

`Architect._generate_condition_groups` (architect.py lines 138-214).  The
equivalence oracle parameter already folds in the source's error handling
(`_check_condition_equivalence` returns `False` on an oracle exception). -/

/-- `RequirementParser.ANY_CIRCUMSTANCES_CONDITION`. -/
def ANY_CIRCUMSTANCES_CONDITION : String :=
  "under any circumstances"

/-- One step of the greedy equivalence merge: append `req` to the first
group whose nominal condition the oracle judges equivalent, else seed a
new group at the end (this also covers the empty-list seed case). -/
def insertIntoGroups (equiv : String → String → Bool) (req : Requirement) :
    List ConditionGroup → List ConditionGroup
  | [] => [⟨req.condition_text, [req]⟩]
  | g :: rest =>
    if equiv req.condition_text g.nominal_condition then
      ⟨g.nominal_condition, g.requirements ++ [req]⟩ :: rest
    else
      g :: insertIntoGroups equiv req rest

/-- `Architect._generate_condition_groups`.  `embeddings` is the embedding
oracle's response for the conditioned requirements' texts (an empty vector
models an individual embedding failure). -/
def generate_condition_groups (km : KMeansOracle)
    (equiv : String → String → Bool) (asrs : List Requirement)
    (embeddings : List (List ℚ)) : List ConditionGroup :=
  let any_condition := ANY_CIRCUMSTANCES_CONDITION
  let reqs_with_conditions := asrs.filter (fun r => r.condition_text ≠ any_condition)
  let reqs_without_conditions := asrs.filter (fun r => r.condition_text = any_condition)
  let base :=
    if reqs_without_conditions.isEmpty then []
    else [ConditionGroup.mk any_condition reqs_without_conditions]
  if reqs_with_conditions.isEmpty then base
  else
    let valid_embeddings := embeddings.filter (fun e => !e.isEmpty)
    if valid_embeddings.length < 2 then
      base ++ reqs_with_conditions.map (fun r => ⟨r.condition_text, [r]⟩)
    else
      let cluster_assignments := cluster_conditions km valid_embeddings
      let cluster_map := map_to_clusters reqs_with_conditions cluster_assignments
      base ++ (cluster_map.map Prod.snd).foldl (fun acc cluster_reqs =>
        acc ++ cluster_reqs.foldl (fun gs r => insertIntoGroups equiv r gs) []) []

/-! ### Optimization engine

`Optimizer._greedy` and `Optimizer._ilp` (optimizer_service.py).  The
greedy algorithm is embedded directly.  The ILP is the 0/1 program "one
binary variable per pattern, the variables of each category sum to 1,
maximize Σ rowScore·var"; because every pattern belongs to exactly one
category, its feasible points are exactly the per-category selections
below and its objective is `ilpObjective`, so "SCIP solves to global
optimality" is modelled by the predicate `IlpOptimal`. -/

/-- One iteration of the inner column loop shared by `_greedy` and
`_ilp`'s extraction: update the running weighted score over the desired
qualities and the satisfied/unsatisfied lists. -/
def rowStep (desired_qualities : List String) (column_weights : List (String × Int))
    (acc : Int × List (String × Int) × List (String × Int)) (cv : String × Int) :
    Int × List (String × Int) × List (String × Int) :=
  if cv.1 ∈ desired_qualities then
    let rv := acc.1 + cv.2 * ((alGet column_weights cv.1).getD 0)
    if cv.2 > 0 then (rv, acc.2.1 ++ [cv], acc.2.2)
    else if cv.2 < 0 then (rv, acc.2.1, acc.2.2 ++ [cv])
    else (rv, acc.2.1, acc.2.2)
  else acc

/-- The inner column loop itself, iterated left-to-right over the row's
columns (insertion order of the Python dict). -/
def rowEvalAux (desired_qualities : List String)
    (column_weights : List (String × Int)) :
    Row → Int × List (String × Int) × List (String × Int) →
      Int × List (String × Int) × List (String × Int)
  | [], acc => acc
  | cv :: rest, acc =>
    rowEvalAux desired_qualities column_weights rest
      (rowStep desired_qualities column_weights acc cv)

/-- Score plus satisfied/unsatisfied lists of one row, starting from the
loop's initial state `(0, [], [])`. -/
def rowEval (desired_qualities : List String) (column_weights : List (String × Int))
    (columns : Row) : Int × List (String × Int) × List (String × Int) :=
  rowEvalAux desired_qualities column_weights columns (0, [], [])

/-- The `Decision` the greedy scan builds for one row (and whose
satisfied/unsatisfied lists `_ilp`'s extraction shares). -/
def mkDec (desired_qualities : List String) (column_weights : List (String × Int))
    (group : String) (pr : String × Row) : Decision :=
  let e := rowEval desired_qualities column_weights pr.2
  ⟨group, pr.1, e.1, e.2.1, e.2.2⟩

/-- `_ilp`'s row score `sum(columns.get(q, 0) * column_weights.get(q, 0)
for q in desired_qualities)` — the documented row-score formula. -/
def ilpRowScore (desired_qualities : List String)
    (column_weights : List (String × Int)) (columns : Row) : Int :=
  (desired_qualities.map (fun q =>
    ((alGet columns q).getD 0) * ((alGet column_weights q).getD 0))).sum

/-- `_greedy`'s scan over one category's rows: keep the first row whose
score strictly exceeds the best so far (`none` models the initial
`float("-inf")` score). -/
def greedyScan (desired_qualities : List String)
    (column_weights : List (String × Int)) (group : String) :
    List (String × Row) → Option Decision → Option Decision
  | [], best => best
  | pr :: rest, best =>
    let cand := mkDec desired_qualities column_weights group pr
    let best' :=
      match best with
      | none => some cand
      | some d => if cand.score > d.score then some cand else some d
    greedyScan desired_qualities column_weights group rest best'

/-- `Optimizer._greedy`'s decision list.  Python appends an inert
placeholder `Decision(score=-inf)` for a category with no rows; the model
drops it (the theorems below assume at least one pattern per category,
under which the two agree). -/
def greedy_decisions (desired_qualities : List String)
    (column_weights : List (String × Int)) (m : Matrix) : List Decision :=
  m.get_all_groups.filterMap (fun g =>
    greedyScan desired_qualities column_weights g (m.get_rows_by_group g) none)

/-- A feasible point of the `_ilp` program: one pattern of each category's
rows is selected (`sel` names the chosen pattern per category). -/
def Feasible (m : Matrix) (sel : String → String) : Prop :=
  ∀ g ∈ m.get_all_groups, sel g ∈ (m.get_rows_by_group g).map Prod.fst

/-- The `_ilp` objective value of a feasible point. -/
def ilpObjective (m : Matrix) (desired_qualities : List String)
    (column_weights : List (String × Int)) (sel : String → String) : Int :=
  (m.get_all_groups.map (fun g =>
    ilpRowScore desired_qualities column_weights
      ((alGet (m.get_rows_by_group g) (sel g)).getD []))).sum

/-- "SCIP returned `OPTIMAL`": `sel` is feasible and maximizes the
objective over all feasible points. -/
def IlpOptimal (m : Matrix) (desired_qualities : List String)
    (column_weights : List (String × Int)) (sel : String → String) : Prop :=
  Feasible m sel ∧
    ∀ sel', Feasible m sel' →
      ilpObjective m desired_qualities column_weights sel' ≤
        ilpObjective m desired_qualities column_weights sel

/-- `_ilp`'s extraction loop: one `Decision` per category for the selected
pattern, with the satisfied/unsatisfied lists computed by the same column
filter as greedy and the score by the `_ilp` row-score formula. -/
def ilp_decisions (m : Matrix) (desired_qualities : List String)
    (column_weights : List (String × Int)) (sel : String → String) : List Decision :=
  m.get_all_groups.map (fun g =>
    let columns := (alGet (m.get_rows_by_group g) (sel g)).getD []
    let e := rowEval desired_qualities column_weights columns
    ⟨g, sel g, ilpRowScore desired_qualities column_weights columns, e.2.1, e.2.2⟩)

/-- `Optimizer._calculate_satisfaction_scores` (shared by both modes). -/
def calculate_satisfaction_scores (m : Matrix) (column_weights : List (String × Int))
    (decisions : List Decision) : List (String × Int) :=
  decisions.foldl (fun satisfaction_scores d =>
    match alGet (m.get_rows_by_group d.arch_pattern_name) d.selected_pattern with
    | some selected_row =>
      if selected_row.isEmpty then satisfaction_scores
      else selected_row.foldl (fun s cv =>
        alSet s cv.1 ((alGet s cv.1).getD 0 + cv.2 * ((alGet column_weights cv.1).getD 0)))
        satisfaction_scores
    | none => satisfaction_scores) []

/-- `Concern.total_score`: the sum of the decisions' scores. -/
def total_score (decisions : List Decision) : Int :=
  (decisions.map Decision.score).sum

/-! ### Sample data used by the concrete theorems and witnesses -/

/-- A K-Means oracle whose numeric branch is never consulted by the
theorems below (they all stay on the early-return paths). -/
def km0 : KMeansOracle :=
  ⟨fun _ _ => 0, fun _ _ => []⟩

/-- The matrix of `tests/test_optimizer.py`'s `sample_matrix` fixture. -/
def sampleMatrix : Matrix :=
  { _rows :=
      [("Monolith", [("Performance Efficiency", 1), ("Security", 1), ("Maintainability", -1)]),
       ("Microservices", [("Performance Efficiency", 0), ("Security", 0), ("Maintainability", 1)]),
       ("SQL", [("Performance Efficiency", -1), ("Security", -1), ("Maintainability", 1)]),
       ("NoSQL", [("Performance Efficiency", 1), ("Security", 1), ("Maintainability", -1)])],
    row_groups :=
      [("Monolith", "Deployment"), ("Microservices", "Deployment"),
       ("SQL", "Database Management"), ("NoSQL", "Database Management")] }

/-- A matrix whose second row has a column absent from the first row. -/
def twoColMatrix : Matrix :=
  ⟨[("P1", [("A", 1)]), ("P2", [("B", 1)])], [("P1", "G"), ("P2", "G")]⟩

/-- An empty matrix (the weight calculator ignores the matrix outside the
`EQUALLY_IMPORTANT` branch). -/
def emptyMatrix : Matrix :=
  ⟨[], []⟩

/-- A requirement tagged with the quality attribute Security. -/
def reqSec : Requirement :=
  ⟨1, "r1", true, ["Security"], "A"⟩

/-- A requirement tagged with Usability and Security. -/
def reqUsaSec : Requirement :=
  ⟨2, "r2", true, ["Usability", "Security"], "B"⟩

/-- Condition group of `reqSec`. -/
def cgSecA : ConditionGroup :=
  ⟨"A", [reqSec]⟩

/-- Condition group of `reqUsaSec`. -/
def cgUsaSecB : ConditionGroup :=
  ⟨"B", [reqUsaSec]⟩

/-- The sentinel unconditional group. -/
def cgUncond : ConditionGroup :=
  ⟨ANY_CIRCUMSTANCES_CONDITION, []⟩

/-- Bare condition groups used by the parser theorems. -/
def cgA : ConditionGroup := ⟨"condA", []⟩

def cgB : ConditionGroup := ⟨"condB", []⟩

def cgC : ConditionGroup := ⟨"condC", []⟩

def cgD : ConditionGroup := ⟨"condD", []⟩

/-! ### Lemmas about the string primitives -/

theorem length_dropWhile_le' (p : Char → Bool) (l : List Char) :
    (l.dropWhile p).length ≤ l.length := by
  induction l with
  | nil => simp
  | cons c rest ih =>
    by_cases hc : p c
    · rw [List.dropWhile_cons_of_pos hc]
      exact Nat.le_trans ih (by simp)
    · rw [List.dropWhile_cons_of_neg hc]

theorem matchDelim_length (l r : List Char) (h : matchDelim l = some r) :
    r.length < l.length := by
  unfold matchDelim at h
  split at h
  case h_2 => exact absurd h (by simp)
  case h_1 c1 rest =>
    split at h
    case isFalse => exact absurd h (by simp)
    case isTrue =>
      split at h
      case h_2 heq => exact absurd h (by simp)
      case h_1 c2 r2 heq =>
        split at h
        case isFalse => exact absurd h (by simp)
        case isTrue =>
          split at h
          case h_2 heq2 => exact absurd h (by simp)
          case h_1 c3 r3 heq2 =>
            split at h
            case isFalse => exact absurd h (by simp)
            case isTrue =>
              have h3 : r3.length + 1 ≤ r2.length := by
                have := length_dropWhile_le' pyIsSpace r2
                rw [heq2] at this
                simpa using this
              have h2 : r2.length + 1 ≤ rest.length := by
                have := length_dropWhile_le' pyIsSpace rest
                rw [heq] at this
                simpa using this
              have : r3.length < rest.length := by omega
              simp only [Option.some.injEq] at h
              subst h
              simp only [List.length_cons]
              omega

theorem reSplitAux_fuel (f1 : Nat) :
    ∀ (f2 : Nat) (l buf : List Char), l.length ≤ f1 → l.length ≤ f2 →
      reSplitAux f1 l buf = reSplitAux f2 l buf := by
  induction f1 with
  | zero =>
    intro f2 l buf h1 _
    have : l = [] := List.length_eq_zero.mp (Nat.le_zero.mp h1)
    subst this
    cases f2 <;> rfl
  | succ k ih =>
    intro f2 l buf h1 h2
    cases l with
    | nil => cases f2 <;> rfl
    | cons c rest =>
      have hf2 : ∃ k2, f2 = k2 + 1 := by
        cases f2 with
        | zero => simp at h2
        | succ k2 => exact ⟨k2, rfl⟩
      obtain ⟨k2, rfl⟩ := hf2
      simp only [reSplitAux]
      cases hm : matchDelim (c :: rest) with
      | some rem =>
        have hlen := matchDelim_length _ _ hm
        simp only [List.length_cons] at h1 h2 hlen
        show buf.reverse :: reSplitAux k rem [] = buf.reverse :: reSplitAux k2 rem []
        rw [ih k2 rem [] (by omega) (by omega)]
      | none =>
        simp only [List.length_cons] at h1 h2
        exact ih k2 rest (c :: buf) (by omega) (by omega)

/-! ### General lemmas about the association-list model -/

theorem alGet_cons {κ α : Type} [DecidableEq κ] (k : κ) (v : α)
    (rest : List (κ × α)) (key : κ) :
    alGet ((k, v) :: rest) key = if k = key then some v else alGet rest key := rfl

theorem alGet_alSet {κ α : Type} [DecidableEq κ] (l : List (κ × α)) (k : κ) (v : α)
    (key : κ) :
    alGet (alSet l k v) key = if k = key then some v else alGet l key := by
  induction l with
  | nil => simp [alSet, alGet_cons, alGet]
  | cons p rest ih =>
    obtain ⟨k', w⟩ := p
    by_cases hk : k' = k
    · subst hk
      simp only [alSet, if_pos rfl, alGet_cons]
      by_cases h2 : k' = key <;> simp [h2, alGet_cons]
    · rw [alSet, if_neg hk, alGet_cons, alGet_cons, ih]
      by_cases hkey : k = key
      · subst hkey
        simp [hk]
      · simp [hkey]

theorem mem_of_alGet {κ α : Type} [DecidableEq κ] (l : List (κ × α)) (k : κ) (v : α)
    (h : alGet l k = some v) : (k, v) ∈ l := by
  induction l with
  | nil => simp [alGet] at h
  | cons p rest ih =>
    obtain ⟨k', w⟩ := p
    rw [alGet_cons] at h
    by_cases hk : k' = k
    · subst hk
      simp at h
      simp [h]
    · rw [if_neg hk] at h
      exact List.mem_cons_of_mem _ (ih h)

theorem alGet_of_mem_nodup {κ α : Type} [DecidableEq κ] (l : List (κ × α)) (k : κ)
    (v : α) (hmem : (k, v) ∈ l) (hnd : (l.map Prod.fst).Nodup) :
    alGet l k = some v := by
  induction l with
  | nil => simp at hmem
  | cons p rest ih =>
    obtain ⟨k', w⟩ := p
    simp only [List.map_cons, List.nodup_cons] at hnd
    rcases List.mem_cons.mp hmem with h | h
    · obtain ⟨h1, h2⟩ := Prod.mk.injEq .. ▸ h
      injection h with h'
      rw [alGet_cons]
      simp_all
    · have hk : k' ≠ k := by
        intro hcontra
        subst hcontra
        exact hnd.1 (List.mem_map.mpr ⟨(k', v), h, rfl⟩)
      rw [alGet_cons, if_neg hk]
      exact ih h hnd.2

theorem exists_of_mem_keys {κ α : Type} [DecidableEq κ] (l : List (κ × α)) (k : κ)
    (h : k ∈ l.map Prod.fst) : ∃ v, (k, v) ∈ l := by
  rcases List.mem_map.mp h with ⟨⟨k', v⟩, hmem, hk⟩
  exact ⟨v, hk ▸ hmem⟩

/-! ### Floor-division bridge: Python `//` is `Int.fdiv`, which is the
rational floor of the quotient. -/

theorem fdiv_neg_neg (a b : Int) : Int.fdiv (-a) (-b) = Int.fdiv a b := by
  by_cases hb0 : b = 0
  · subst hb0
    rw [neg_zero, Int.fdiv_zero, Int.fdiv_zero]
  · rcases a with m | m <;> rcases b with n | n
    all_goals (try rcases n with _ | n)
    all_goals (try rcases m with _ | m)
    all_goals first
      | rfl
      | (exact absurd rfl hb0)

theorem fdiv_eq_floor_pos (a b : Int) (hb : 0 < b) :
    Int.fdiv a b = ⌊(a : ℚ) / b⌋ := by
  symm
  rw [Int.floor_eq_iff]
  have hbq : (0 : ℚ) < (b : ℚ) := by exact_mod_cast hb
  constructor
  · rw [le_div_iff hbq]
    have h1 : b * Int.fdiv a b + Int.fmod a b = a := Int.fdiv_add_fmod a b
    have h2 : 0 ≤ Int.fmod a b := Int.fmod_nonneg' a hb
    have h3 : b * Int.fdiv a b ≤ a := by omega
    have h4 : Int.fdiv a b * b ≤ a := by
      rw [mul_comm]
      exact h3
    exact_mod_cast h4
  · rw [div_lt_iff hbq]
    have := Int.lt_fdiv_add_one_mul_self a hb
    exact_mod_cast this

theorem fdiv_eq_floor (a b : Int) (hb : b ≠ 0) :
    Int.fdiv a b = ⌊(a : ℚ) / b⌋ := by
  rcases lt_or_gt_of_ne hb with hneg | hpos
  · rw [← fdiv_neg_neg a b, fdiv_eq_floor_pos (-a) (-b) (by omega)]
    congr 1
    push_cast
    rw [neg_div_neg_eq]
  · exact fdiv_eq_floor_pos a b hpos

/-! ### Claims C8, C6, C7: weight calculator -/

/-- Claim C8 — For every weight map whose values sum to a nonzero total,
`_normalize_weights` returns a map with the same key set where each value
is `floor(weight[q] * 100 / totalWeight)` (shown both as Python floor
division `Int.fdiv` and as the rational floor); for every weight map whose
values sum to 0 (the empty map included) it returns the input unchanged. -/
theorem C8_normalize_weights (weights : List (String × Int)) :
    ((weights.map Prod.snd).sum ≠ 0 →
      normalize_weights weights =
        weights.map (fun kv =>
          (kv.1, ⌊((kv.2 : ℚ) * 100) / (((weights.map Prod.snd).sum : Int) : ℚ)⌋)))
    ∧ ((weights.map Prod.snd).sum = 0 → normalize_weights weights = weights)
    ∧ (normalize_weights weights).map Prod.fst = weights.map Prod.fst := by
  refine ⟨fun hne => ?_, fun hz => ?_, ?_⟩
  · rw [normalize_weights, if_neg hne]
    apply List.map_congr_left
    intro kv _
    rw [fdiv_eq_floor _ _ hne]
    push_cast
    rfl
  · rw [normalize_weights, if_pos hz]
  · rw [normalize_weights]
    split
    · rfl
    · rw [List.map_map]
      rfl

/-- Witness for C8: both branches at concrete inputs. -/
theorem C8_normalize_weights_witness :
    (normalize_weights [("A", 1), ("B", 2)] =
      ([("A", 1), ("B", 2)] : List (String × Int)).map (fun kv =>
        (kv.1, ⌊((kv.2 : ℚ) * 100) /
          (((([("A", 1), ("B", 2)] : List (String × Int)).map Prod.snd).sum : Int) : ℚ)⌋)))
    ∧ normalize_weights [("C", 0)] = [("C", 0)] :=
  ⟨(C8_normalize_weights [("A", 1), ("B", 2)]).1 (by decide),
   (C8_normalize_weights [("C", 0)]).2.1 (by decide)⟩

theorem alGet_foldl_set_one (cols : Row) (w0 : List (String × Int)) (q : String) :
    alGet (cols.foldl (fun w qv => alSet w qv.1 1) w0) q
      = if q ∈ cols.map Prod.fst then some 1 else alGet w0 q := by
  induction cols generalizing w0 with
  | nil => simp
  | cons cv rest ih =>
    rw [List.foldl_cons, ih, List.map_cons]
    by_cases hq : q ∈ rest.map Prod.fst
    · rw [if_pos hq, if_pos (List.mem_cons_of_mem _ hq)]
    · rw [if_neg hq, alGet_alSet]
      by_cases hc : cv.1 = q
      · rw [if_pos hc, if_pos (by rw [hc]; exact List.mem_cons_self _ _)]
      · have hnot : q ∉ cv.1 :: rest.map Prod.fst := by
          intro hmem
          rcases List.mem_cons.mp hmem with h | h
          · exact hc h.symm
          · exact hq h
        rw [if_neg hc, if_neg hnot]

/-- Claim C6 counterexample — the claim fails as stated: on a matrix whose
second row has column `B` absent from the first row, `EQUALLY_IMPORTANT`
weight calculation assigns `B` no weight at all, although `B` appears as
a column of the `ScoringMatrix`. -/
theorem C6_equally_important_counterexample :
    (∃ pr ∈ twoColMatrix._rows, ("B" : String) ∈ pr.2.map Prod.fst)
    ∧ alGet (calculate_quality_weights twoColMatrix ⟨[]⟩
        QualityWeightsMode.equallyImportant none) "B" = none := by
  constructor
  · exact ⟨("P2", [("B", 1)]), by decide, by decide⟩
  · decide

/-- Claim C6 (amended) — With mode = EQUALLY_IMPORTANT the weight calculator
returns the map assigning weight 1 to exactly the quality attributes that
appear as columns of the **first row** of the ScoringMatrix (the loop
`break`s after the first row), independent of the SatisfiableGroup and of
`provided_weights`. -/
theorem C6_equally_important_first_row (m : Matrix) (sg : SatisfiableGroup)
    (pw : Option (List (String × Int))) (p : String) (cols : Row)
    (rest : List (String × Row)) (h : m._rows = (p, cols) :: rest) (q : String) :
    alGet (calculate_quality_weights m sg QualityWeightsMode.equallyImportant pw) q
      = if q ∈ cols.map Prod.fst then some 1 else none := by
  rw [calculate_quality_weights]
  rw [if_neg (by simp)]
  rw [if_pos rfl]
  rw [Matrix.get_rows, h]
  rw [alGet_foldl_set_one]
  split
  · rfl
  · rfl

/-- Witness for C6's amended theorem at a concrete matrix. -/
theorem C6_equally_important_first_row_witness :
    alGet (calculate_quality_weights twoColMatrix ⟨[]⟩
        QualityWeightsMode.equallyImportant none) "A"
      = if ("A" : String) ∈ ([("A", 1)] : Row).map Prod.fst then some 1 else none :=
  C6_equally_important_first_row twoColMatrix ⟨[]⟩ none "P1" [("A", 1)]
    [("P2", [("B", 1)])] rfl "A"

/-- Claim C7 counterexample — the claim fails as stated: with mode = PROVIDED
and the **empty** provided map, the calculator does not return the empty
map verbatim; the empty dict is falsy, so control falls through to the
INFERRED counting branch. -/
theorem C7_provided_counterexample :
    calculate_quality_weights emptyMatrix ⟨[cgSecA]⟩
        QualityWeightsMode.provided (some []) ≠ []
    ∧ calculate_quality_weights emptyMatrix ⟨[cgSecA]⟩
        QualityWeightsMode.provided (some [])
      = calculate_quality_weights emptyMatrix ⟨[cgSecA]⟩
          QualityWeightsMode.inferred none := by
  constructor
  · decide
  · decide

/-- Claim C7 (amended) — With mode = PROVIDED and a nonempty provided
map, the calculator returns it verbatim (no validation of its keys); when
the provided map is empty or absent, the PROVIDED branch is skipped and
the INFERRED counting runs instead. -/
theorem C7_provided_verbatim (m : Matrix) (sg : SatisfiableGroup)
    (pw : List (String × Int)) (h : pw ≠ []) :
    calculate_quality_weights m sg QualityWeightsMode.provided (some pw) = pw
    ∧ calculate_quality_weights m sg QualityWeightsMode.provided none
        = calculate_quality_weights m sg QualityWeightsMode.inferred none
    ∧ calculate_quality_weights m sg QualityWeightsMode.provided (some [])
        = calculate_quality_weights m sg QualityWeightsMode.inferred none := by
  refine ⟨?_, ?_, ?_⟩
  · rw [calculate_quality_weights, if_pos]
    · rfl
    · simp [truthy, h]
  · rw [calculate_quality_weights, calculate_quality_weights]
    rw [if_neg (by simp [truthy]), if_neg (by simp [truthy])]
    rw [if_neg (by simp), if_neg (by simp)]
  · rw [calculate_quality_weights, calculate_quality_weights]
    rw [if_neg (by simp [truthy]), if_neg (by simp [truthy])]
    rw [if_neg (by simp), if_neg (by simp)]

/-- Witness for C7's amended theorem at a concrete nonempty map. -/
theorem C7_provided_verbatim_witness :
    calculate_quality_weights emptyMatrix ⟨[cgSecA]⟩
        QualityWeightsMode.provided (some [("X", 5)]) = [("X", 5)]
    ∧ calculate_quality_weights emptyMatrix ⟨[cgSecA]⟩
        QualityWeightsMode.provided none
      = calculate_quality_weights emptyMatrix ⟨[cgSecA]⟩
          QualityWeightsMode.inferred none
    ∧ calculate_quality_weights emptyMatrix ⟨[cgSecA]⟩
        QualityWeightsMode.provided (some [])
      = calculate_quality_weights emptyMatrix ⟨[cgSecA]⟩
          QualityWeightsMode.inferred none :=
  C7_provided_verbatim emptyMatrix ⟨[cgSecA]⟩ [("X", 5)] (by decide)

/-! ### Claim C9: clustering early-return paths -/

/-- Claim C9 — `cluster_conditions` returns the identity singleton
assignment `[0, 1, ..., n-1]` whenever `n < 2`, and also whenever
`max_k ≤ min_k` with `min_k = max(2, n / 10)` and
`max_k = min(max_clusters, n / 5, n - 1)` under integer division —
independent of the K-Means oracle. -/
theorem C9_cluster_identity (km : KMeansOracle) (embeddings : List (List ℚ))
    (max_clusters max_cluster_size : Nat)
    (h : embeddings.length < 2 ∨
      min max_clusters (min (embeddings.length / 5) (embeddings.length - 1))
        ≤ max 2 (embeddings.length / 10)) :
    cluster_conditions km embeddings max_clusters max_cluster_size
      = List.range embeddings.length := by
  rw [cluster_conditions]
  by_cases h2 : embeddings.length < 2
  · rw [if_pos h2]
  · rw [if_neg h2]
    rcases h with h | h
    · exact absurd h h2
    · simp only []
      rw [if_pos h]

/-- Witness for C9 at two concrete vectors (the range collapses). -/
theorem C9_cluster_identity_witness :
    cluster_conditions km0 [[(1 : ℚ)], [(2 : ℚ)]] 20 30 = List.range 2 :=
  C9_cluster_identity km0 [[(1 : ℚ)], [(2 : ℚ)]] 20 30 (Or.inr (by decide))

/-! ### Lemmas about the partition-response parser -/

theorem filterMap_parse_index (n : Nat) (toks : List (List Char)) :
    toks.filterMap (parse_index n)
      = ((toks.filterMap parse_token).filter
          (fun i => decide (1 ≤ i ∧ i ≤ (n : Int)))).map Int.toNat := by
  induction toks with
  | nil => rfl
  | cons t rest ih =>
    rw [List.filterMap_cons, List.filterMap_cons]
    cases ht : parse_token t with
    | none => simp [parse_index, ht, ih]
    | some j =>
      by_cases hj : 1 ≤ j ∧ j ≤ (n : Int)
      · simp [parse_index, ht, hj, ih]
      · simp [parse_index, ht, hj, ih]

theorem mem_segment_ids (n : Nat) (seg : List Char) (i : Nat)
    (h : i ∈ segment_ids n seg) : 1 ≤ i ∧ i ≤ n := by
  rw [segment_ids] at h
  rcases List.mem_filterMap.mp h with ⟨tok, _, htok⟩
  cases ht : parse_token tok with
  | none =>
    simp only [parse_index, ht] at htok
    cases htok
  | some j =>
    simp only [parse_index, ht] at htok
    split at htok
    · rename_i hrange
      injection htok with h'
      omega
    · cases htok

theorem parse_mem_of_mem (cgs : List ConditionGroup) (r : String)
    (sg : SatisfiableGroup) (hsg : sg ∈ parse_satisfiable_groups_response cgs r)
    (g : ConditionGroup) (hg : g ∈ sg.condition_groups) : g ∈ cgs := by
  simp only [parse_satisfiable_groups_response] at hsg
  rcases List.mem_filterMap.mp hsg with ⟨seg, _, hseg⟩
  split at hseg
  · cases hseg
  · injection hseg with h'
    subst h'
    simp only at hg
    rcases List.mem_map.mp hg with ⟨i, hi, hgi⟩
    have hb := mem_segment_ids _ _ _ hi
    have hlt : i - 1 < cgs.length := by omega
    rw [List.getD_eq_getElem cgs defaultConditionGroup hlt] at hgi
    exact hgi ▸ List.getElem_mem hlt

/-! ### Lemmas about the retry loop -/

theorem try_attempts_mem (cgs : List ConditionGroup) (attempts : Nat → Option String) :
    ∀ (fuel i : Nat), ∀ sg ∈ try_attempts cgs attempts fuel i,
      ∀ g ∈ sg.condition_groups, g ∈ cgs := by
  intro fuel
  induction fuel with
  | zero =>
    intro i sg hsg g hg
    simp only [try_attempts, List.mem_singleton] at hsg
    subst hsg
    exact hg
  | succ k ih =>
    intro i sg hsg g hg
    cases ha : attempts i with
    | none =>
      simp only [try_attempts, ha] at hsg
      exact ih _ sg hsg g hg
    | some s =>
      simp only [try_attempts, ha] at hsg
      split at hsg
      · exact ih _ sg hsg g hg
      · exact parse_mem_of_mem cgs s sg hsg g hg

theorem try_attempts_fallback (cgs : List ConditionGroup)
    (attempts : Nat → Option String) :
    ∀ (fuel i : Nat),
      (∀ j, j < fuel → ∀ s, attempts (i + j) = some s →
        parse_satisfiable_groups_response cgs s = []) →
      try_attempts cgs attempts fuel i = [⟨cgs⟩] := by
  intro fuel
  induction fuel with
  | zero =>
    intro i _
    simp [try_attempts]
  | succ k ih =>
    intro i hfail
    have hshift : ∀ j, j < k → ∀ s, attempts (i + 1 + j) = some s →
        parse_satisfiable_groups_response cgs s = [] := by
      intro j hj s hs
      refine hfail (j + 1) (by omega) s ?_
      rw [← hs]
      congr 1
      omega
    cases ha : attempts i with
    | none =>
      simp only [try_attempts, ha]
      exact ih (i + 1) hshift
    | some s =>
      have hp : parse_satisfiable_groups_response cgs s = [] :=
        hfail 0 (by omega) s (by rw [Nat.add_zero]; exact ha)
      simp only [try_attempts, ha, hp, List.isEmpty_nil, if_pos]
      exact ih (i + 1) hshift

theorem try_attempts_ext (cgs : List ConditionGroup)
    (a1 a2 : Nat → Option String) :
    ∀ (fuel i : Nat), (∀ j, j < fuel → a1 (i + j) = a2 (i + j)) →
      try_attempts cgs a1 fuel i = try_attempts cgs a2 fuel i := by
  intro fuel
  induction fuel with
  | zero =>
    intro i _
    simp [try_attempts]
  | succ k ih =>
    intro i hagree
    have h0 : a1 i = a2 i := by
      have := hagree 0 (by omega)
      rwa [Nat.add_zero] at this
    have hshift : ∀ j, j < k → a1 (i + 1 + j) = a2 (i + 1 + j) := by
      intro j hj
      have := hagree (j + 1) (by omega)
      rw [show i + (j + 1) = i + 1 + j by omega] at this
      exact this
    cases ha : a1 i with
    | none =>
      have ha2 : a2 i = none := by
        rw [← h0]
        exact ha
      simp only [try_attempts, ha, ha2]
      exact ih (i + 1) hshift
    | some s =>
      have ha2 : a2 i = some s := by
        rw [← h0]
        exact ha
      simp only [try_attempts, ha, ha2]
      split
      · exact ih (i + 1) hshift
      · rfl

theorem try_attempts_first (cgs : List ConditionGroup)
    (attempts : Nat → Option String) :
    ∀ (fuel j i : Nat) (s : String), j < fuel → attempts (i + j) = some s →
      parse_satisfiable_groups_response cgs s ≠ [] →
      (∀ j', j' < j → ∀ s', attempts (i + j') = some s' →
        parse_satisfiable_groups_response cgs s' = []) →
      try_attempts cgs attempts fuel i = parse_satisfiable_groups_response cgs s := by
  intro fuel
  induction fuel with
  | zero =>
    intro j i s hj
    omega
  | succ k ih =>
    intro j i s hj ha hp hearlier
    cases j with
    | zero =>
      rw [Nat.add_zero] at ha
      have hne : (parse_satisfiable_groups_response cgs s).isEmpty = false := by
        cases hc : parse_satisfiable_groups_response cgs s with
        | nil => exact absurd hc hp
        | cons a l => rfl
      simp only [try_attempts, ha, hne]
      rw [if_neg (by simp [hne])]
    | succ j' =>
      have hshift : attempts (i + 1 + j') = some s := by
        rw [show i + 1 + j' = i + (j' + 1) by omega]
        exact ha
      have hearlier' : ∀ j'', j'' < j' → ∀ s', attempts (i + 1 + j'') = some s' →
          parse_satisfiable_groups_response cgs s' = [] := by
        intro j'' hj'' s' hs'
        refine hearlier (j'' + 1) (by omega) s' ?_
        rw [show i + (j'' + 1) = i + 1 + j'' by omega]
        exact hs'
      cases ha0 : attempts i with
      | none =>
        simp only [try_attempts, ha0]
        exact ih j' (i + 1) s (by omega) hshift hp hearlier'
      | some s0 =>
        have hp0 : parse_satisfiable_groups_response cgs s0 = [] :=
          hearlier 0 (by omega) s0 (by rw [Nat.add_zero]; exact ha0)
        simp only [try_attempts, ha0, hp0, List.isEmpty_nil, if_pos]
        exact ih j' (i + 1) s (by omega) hshift hp hearlier'

theorem try_attempts_ne_nil (cgs : List ConditionGroup)
    (attempts : Nat → Option String) :
    ∀ (fuel i : Nat), try_attempts cgs attempts fuel i ≠ [] := by
  intro fuel
  induction fuel with
  | zero =>
    intro i
    simp [try_attempts]
  | succ k ih =>
    intro i
    cases ha : attempts i with
    | none =>
      simp only [try_attempts, ha]
      exact ih (i + 1)
    | some s =>
      simp only [try_attempts, ha]
      split
      · exact ih (i + 1)
      · rename_i hne
        intro hcontra
        rw [hcontra] at hne
        exact hne rfl

/-! ### Claim C4: the partition-response parser -/

/-- Claim C4 — Parsing `'(1,2),(3,4)'` against four ConditionGroups yields
exactly the two SatisfiableGroups `{1,2}` and `{3,4}`; in any response,
each token that is non-numeric or out of `[1, groupCount]` is dropped
individually while the remaining valid tokens of its segment are kept (a
segment's index list is exactly the parsed tokens filtered to the valid
range, in order); and a response in which no token anywhere is valid
yields zero SatisfiableGroups. -/
theorem C4_parse_response :
    parse_satisfiable_groups_response [cgA, cgB, cgC, cgD] "(1,2),(3,4)"
        = [⟨[cgA, cgB]⟩, ⟨[cgC, cgD]⟩]
    ∧ (∀ (n : Nat) (seg : List Char),
        segment_ids n seg
          = (((splitComma seg).filterMap parse_token).filter
              (fun i => decide (1 ≤ i ∧ i ≤ (n : Int)))).map Int.toNat)
    ∧ (∀ (cgs : List ConditionGroup) (response : String),
        (∀ seg ∈ reSplit (pyStrip isParen (pyStrip pyIsSpace response.data)),
          segment_ids cgs.length seg = []) →
        parse_satisfiable_groups_response cgs response = []) := by
  refine ⟨by decide, ?_, ?_⟩
  · intro n seg
    rw [segment_ids]
    exact filterMap_parse_index n (splitComma seg)
  · intro cgs response h
    simp only [parse_satisfiable_groups_response]
    rw [List.filterMap_eq_nil]
    intro seg hseg
    rw [h seg hseg]
    rfl

/-- Witness for C4: a response with no valid token yields zero groups. -/
theorem C4_parse_response_witness :
    parse_satisfiable_groups_response [cgA, cgB] "x,y" = [] :=
  C4_parse_response.2.2 [cgA, cgB] "x,y" (by decide)

/-! ### Claim C10: duplicate indices are kept -/

/-- Claim C10 — A segment repeating a valid index, e.g. `'(1,1,2)'`, yields
a SatisfiableGroup containing the corresponding ConditionGroup once per
occurrence (no deduplication), and INFERRED weight calculation over such a
group counts that group's requirements' quality attributes once per
occurrence (here `Security` is counted 3 = 2·1 + 1 times). -/
theorem C10_duplicate_indices :
    (∀ gX gY : ConditionGroup,
      parse_satisfiable_groups_response [gX, gY] "(1,1,2)" = [⟨[gX, gX, gY]⟩])
    ∧ calculate_quality_weights emptyMatrix ⟨[cgSecA, cgSecA, cgUsaSecB]⟩
        QualityWeightsMode.inferred none = [("Security", 3), ("Usability", 1)] := by
  constructor
  · intro gX gY
    rfl
  · decide

/-- Witness for C10 at the concrete groups used by the second conjunct. -/
theorem C10_duplicate_indices_witness :
    parse_satisfiable_groups_response [cgSecA, cgUsaSecB] "(1,1,2)"
      = [⟨[cgSecA, cgSecA, cgUsaSecB]⟩] :=
  C10_duplicate_indices.1 cgSecA cgUsaSecB

/-! ### Claim C2: coverage of condition groups -/

/-- Claim C2 counterexample — the claim fails as stated: with three
ConditionGroups whose first is the sentinel unconditional group, an
accepted oracle response `"(2),(3)"` produces SatisfiableGroups in which
the sentinel group (and hence not every input group) appears in none of
the SatisfiableGroups — the parser enforces no coverage. -/
theorem C2_coverage_counterexample :
    cgUncond ∈ [cgUncond, cgA, cgB]
    ∧ generate_satisfiable_groups [cgUncond, cgA, cgB] (fun _ => some "(2),(3)") ≠ []
    ∧ ∀ sg ∈ generate_satisfiable_groups [cgUncond, cgA, cgB]
        (fun _ => some "(2),(3)"), cgUncond ∉ sg.condition_groups := by
  refine ⟨by decide, by decide, by decide⟩

/-- Claim C2 (amended) — Every ConditionGroup appearing in any produced
SatisfiableGroup comes from the input list; and whenever every attempt
fails or parses to nothing (in particular under the fallback), every input
ConditionGroup — the sentinel included — belongs to every produced
SatisfiableGroup.  Coverage of all input groups is *not* guaranteed when
an oracle response omits an index. -/
theorem C2_coverage (cgs : List ConditionGroup) (attempts : Nat → Option String) :
    (∀ sg ∈ generate_satisfiable_groups cgs attempts,
      ∀ g ∈ sg.condition_groups, g ∈ cgs)
    ∧ ((∀ j, j < 3 → ∀ s, attempts j = some s →
          parse_satisfiable_groups_response cgs s = []) →
        ∀ g ∈ cgs, ∀ sg ∈ generate_satisfiable_groups cgs attempts,
          g ∈ sg.condition_groups) := by
  constructor
  · intro sg hsg g hg
    rw [generate_satisfiable_groups] at hsg
    split at hsg
    · split at hsg
      · simp at hsg
      · simp only [List.mem_singleton] at hsg
        subst hsg
        exact hg
    · exact try_attempts_mem cgs attempts 3 0 sg hsg g hg
  · intro hfail g hg sg hsg
    rw [generate_satisfiable_groups] at hsg
    split at hsg
    · split at hsg
      · simp at hsg
      · simp only [List.mem_singleton] at hsg
        subst hsg
        exact hg
    · rw [try_attempts_fallback cgs attempts 3 0
        (by intro j hj s hs; exact hfail j (by omega) s (by rwa [Nat.zero_add] at hs))] at hsg
      simp only [List.mem_singleton] at hsg
      subst hsg
      exact hg

/-- Witness for C2's amended theorem: all attempts error, so the fallback
covers every group. -/
theorem C2_coverage_witness :
    ∀ g ∈ [cgUncond, cgA], ∀ sg ∈ generate_satisfiable_groups [cgUncond, cgA]
      (fun _ => none), g ∈ sg.condition_groups :=
  (C2_coverage [cgUncond, cgA] (fun _ => none)).2
    (by intro j _ s hs; cases hs)

/-! ### Claim C5: retry policy of the satisfiable-grouping stage -/

/-- Claim C5 — With ≥ 2 ConditionGroups the stage (a) consults at most the
first 3 oracle attempts (the result only depends on them), (b) accepts the
first attempt whose response parses to at least one non-empty
SatisfiableGroup, (c) produces exactly one SatisfiableGroup containing all
ConditionGroups in list order when all 3 attempts fail or yield none, and
(d) always returns a non-empty result (no oracle or parse error
propagates — errors are the `none` attempts, which are consumed). -/
theorem C5_retry_policy (cgs : List ConditionGroup)
    (attempts attempts' : Nat → Option String) (h2 : 2 ≤ cgs.length) :
    ((∀ j, j < 3 → attempts j = attempts' j) →
      generate_satisfiable_groups cgs attempts
        = generate_satisfiable_groups cgs attempts')
    ∧ (∀ j s, j < 3 → attempts j = some s →
        parse_satisfiable_groups_response cgs s ≠ [] →
        (∀ j', j' < j → ∀ s', attempts j' = some s' →
          parse_satisfiable_groups_response cgs s' = []) →
        generate_satisfiable_groups cgs attempts
          = parse_satisfiable_groups_response cgs s)
    ∧ ((∀ j, j < 3 → ∀ s, attempts j = some s →
          parse_satisfiable_groups_response cgs s = []) →
        generate_satisfiable_groups cgs attempts = [⟨cgs⟩])
    ∧ generate_satisfiable_groups cgs attempts ≠ [] := by
  have hng : ¬ cgs.length ≤ 1 := by omega
  refine ⟨?_, ?_, ?_, ?_⟩
  · intro hagree
    rw [generate_satisfiable_groups, if_neg hng,
      generate_satisfiable_groups, if_neg hng]
    exact try_attempts_ext cgs attempts attempts' 3 0
      (by intro j hj; rw [Nat.zero_add]; exact hagree j hj)
  · intro j s hj ha hp hearlier
    rw [generate_satisfiable_groups, if_neg hng]
    exact try_attempts_first cgs attempts 3 j 0 s hj
      (by rwa [Nat.zero_add]) hp
      (by intro j' hj' s' hs'; exact hearlier j' hj' s' (by rwa [Nat.zero_add] at hs'))
  · intro hfail
    rw [generate_satisfiable_groups, if_neg hng]
    exact try_attempts_fallback cgs attempts 3 0
      (by intro j hj s hs; exact hfail j hj s (by rwa [Nat.zero_add] at hs))
  · rw [generate_satisfiable_groups, if_neg hng]
    exact try_attempts_ne_nil cgs attempts 3 0

/-- Witness for C5: attempt 0 errors, attempt 1 parses — the stage returns
attempt 1's parse. -/
theorem C5_retry_policy_witness :
    generate_satisfiable_groups [cgA, cgB]
        (fun n => if n = 0 then none else some "(1),(2)")
      = parse_satisfiable_groups_response [cgA, cgB] "(1),(2)" :=
  (C5_retry_policy [cgA, cgB]
      (fun n => if n = 0 then none else some "(1),(2)")
      (fun n => if n = 0 then none else some "(1),(2)") (by decide)).2.1
    1 "(1),(2)" (by decide) (by decide) (by decide)
    (by
      intro j' hj' s' hs'
      have : j' = 0 := by omega
      subst this
      simp at hs')

/-! ### Claim C3: conditioned requirements dropped on partial embedding
failure -/

/-- Claim C3 (code bug) — With three conditioned ASRs and an embedding
oracle returning an empty vector for the third only, the two valid
embeddings are clustered but `map_to_clusters` zips the cluster
assignments (length 2) against *all three* conditioned requirements, so
the third requirement is silently dropped: it belongs to zero
ConditionGroups, although its condition differs from the sentinel and the
spec's invariant requires exactly one. -/
theorem C3_dropped_requirement :
    (⟨3, "r3", true, [], "C"⟩ : Requirement).condition_text
        ≠ ANY_CIRCUMSTANCES_CONDITION
    ∧ (generate_condition_groups km0 (fun _ _ => false)
        [⟨1, "r1", true, [], "A"⟩, ⟨2, "r2", true, [], "B"⟩, ⟨3, "r3", true, [], "C"⟩]
        [[1], [2], []]).countP
          (fun g => decide ((⟨3, "r3", true, [], "C"⟩ : Requirement)
            ∈ g.requirements)) = 0
    ∧ (generate_condition_groups km0 (fun _ _ => false)
        [⟨1, "r1", true, [], "A"⟩, ⟨2, "r2", true, [], "B"⟩, ⟨3, "r3", true, [], "C"⟩]
        [[1], [2], []])
      = [⟨"A", [⟨1, "r1", true, [], "A"⟩]⟩, ⟨"B", [⟨2, "r2", true, [], "B"⟩]⟩] := by
  refine ⟨by decide, by decide, by decide⟩

/-! ### Lemmas for the optimization engine (claim C1)

The greedy loop accumulates its row score column-by-column; the ILP
objective sums over the desired qualities.  The lemmas below show the two
row-score computations agree whenever the desired-quality list and the
row's column keys are duplicate-free (both come from Python dicts). -/

theorem rowEvalAux_fst (desired : List String) (w : List (String × Int)) :
    ∀ (cols : Row) (acc : Int × List (String × Int) × List (String × Int)),
      (rowEvalAux desired w cols acc).1
        = acc.1 + (cols.map (fun cv =>
            if cv.1 ∈ desired then cv.2 * ((alGet w cv.1).getD 0) else 0)).sum := by
  intro cols
  induction cols with
  | nil =>
    intro acc
    simp [rowEvalAux]
  | cons cv rest ih =>
    intro acc
    rw [rowEvalAux, ih, List.map_cons, List.sum_cons]
    rw [rowStep]
    split_ifs with h1 h2 h3 <;> simp <;> ring

theorem rowEval_fst (desired : List String) (w : List (String × Int)) (cols : Row) :
    (rowEval desired w cols).1
      = (cols.map (fun cv =>
          if cv.1 ∈ desired then cv.2 * ((alGet w cv.1).getD 0) else 0)).sum := by
  rw [rowEval, rowEvalAux_fst]
  simp

theorem alGet_not_mem_keys {κ α : Type} [DecidableEq κ] (l : List (κ × α)) (k : κ)
    (h : k ∉ l.map Prod.fst) : alGet l k = none := by
  induction l with
  | nil => rfl
  | cons p rest ih =>
    rw [alGet_cons, if_neg, ih]
    · intro hmem
      exact h (List.mem_cons_of_mem _ hmem)
    · intro hk
      exact h (hk ▸ List.mem_cons_self _ _)

theorem alGet_isSome {κ α : Type} [DecidableEq κ] (l : List (κ × α)) (k : κ)
    (h : k ∈ l.map Prod.fst) : ∃ v, alGet l k = some v := by
  induction l with
  | nil => simp at h
  | cons p rest ih =>
    by_cases hk : p.1 = k
    · exact ⟨p.2, by rw [← hk]; obtain ⟨k', v⟩ := p; rw [alGet_cons, if_pos rfl]⟩
    · obtain ⟨k', v⟩ := p
      rw [alGet_cons, if_neg hk]
      refine ih ?_
      rcases List.mem_cons.mp (List.map_cons .. ▸ h) with h' | h'
      · exact absurd h'.symm hk
      · exact h'

theorem ilpRowScore_skip (desired : List String) (w : List (String × Int))
    (c : String) (v : Int) (rest : Row) (hnotin : c ∉ desired) :
    ilpRowScore desired w ((c, v) :: rest) = ilpRowScore desired w rest := by
  induction desired with
  | nil => rfl
  | cons q ds ih =>
    rw [ilpRowScore, List.map_cons, List.sum_cons, ilpRowScore, List.map_cons,
      List.sum_cons]
    have hqc : ¬ c = q := fun h => hnotin (h ▸ List.mem_cons_self _ _)
    rw [alGet_cons, if_neg hqc]
    have := ih (fun h => hnotin (List.mem_cons_of_mem _ h))
    rw [ilpRowScore, ilpRowScore] at this
    rw [this]

theorem ilpRowScore_cons (desired : List String) (w : List (String × Int))
    (c : String) (v : Int) (rest : Row) (hnd : desired.Nodup)
    (hnotin : c ∉ rest.map Prod.fst) :
    ilpRowScore desired w ((c, v) :: rest)
      = (if c ∈ desired then v * ((alGet w c).getD 0) else 0)
        + ilpRowScore desired w rest := by
  induction desired with
  | nil => simp [ilpRowScore]
  | cons q ds ih =>
    simp only [List.nodup_cons] at hnd
    rw [ilpRowScore, List.map_cons, List.sum_cons, ilpRowScore, List.map_cons,
      List.sum_cons]
    by_cases hqc : q = c
    · subst hqc
      rw [alGet_cons, if_pos rfl, Option.getD_some]
      rw [if_pos (List.mem_cons_self _ _)]
      have hskip : ilpRowScore ds w ((q, v) :: rest) = ilpRowScore ds w rest :=
        ilpRowScore_skip ds w q v rest hnd.1
      rw [ilpRowScore, ilpRowScore] at hskip
      rw [hskip, alGet_not_mem_keys rest q hnotin]
      simp
    · rw [alGet_cons, if_neg (fun h => hqc h.symm)]
      have := ih hnd.2
      rw [ilpRowScore, ilpRowScore] at this
      rw [this]
      by_cases hcds : c ∈ ds
      · rw [if_pos hcds, if_pos (List.mem_cons_of_mem _ hcds)]
        ring
      · rw [if_neg hcds, if_neg (by
          intro hmem
          rcases List.mem_cons.mp hmem with h | h
          · exact hqc h.symm
          · exact hcds h)]
        ring

theorem rowScore_bridge (desired : List String) (w : List (String × Int))
    (cols : Row) (hnd : desired.Nodup) (hcols : (cols.map Prod.fst).Nodup) :
    (rowEval desired w cols).1 = ilpRowScore desired w cols := by
  rw [rowEval_fst]
  induction cols with
  | nil =>
    rw [ilpRowScore]
    symm
    simp only [List.map_nil, List.sum_nil]
    apply List.sum_eq_zero
    intro x hx
    rcases List.mem_map.mp hx with ⟨q, _, hq⟩
    simp only [alGet, Option.getD_none, zero_mul] at hq
    exact hq.symm
  | cons cv rest ih =>
    obtain ⟨c, v⟩ := cv
    simp only [List.map_cons, List.nodup_cons] at hcols
    rw [List.map_cons, List.sum_cons, ilpRowScore_cons desired w c v rest hnd hcols.1,
      ih hcols.2]

/-! ### Lemmas about the greedy scan -/

theorem greedyScan_nil (desired : List String) (w : List (String × Int))
    (g : String) (best : Option Decision) :
    greedyScan desired w g [] best = best := rfl

theorem greedyScan_cons_none (desired : List String) (w : List (String × Int))
    (g : String) (pr : String × Row) (rest : List (String × Row)) :
    greedyScan desired w g (pr :: rest) none
      = greedyScan desired w g rest (some (mkDec desired w g pr)) := rfl

theorem greedyScan_cons_some (desired : List String) (w : List (String × Int))
    (g : String) (pr : String × Row) (rest : List (String × Row)) (d0 : Decision) :
    greedyScan desired w g (pr :: rest) (some d0)
      = greedyScan desired w g rest
          (if (mkDec desired w g pr).score > d0.score
           then some (mkDec desired w g pr) else some d0) := rfl

theorem greedyScan_some (desired : List String) (w : List (String × Int))
    (g : String) :
    ∀ (rows : List (String × Row)) (best : Option Decision),
      rows ≠ [] ∨ best ≠ none →
      ∃ d, greedyScan desired w g rows best = some d := by
  intro rows
  induction rows with
  | nil =>
    intro best h
    rcases h with h | h
    · exact absurd rfl h
    · cases best with
      | none => exact absurd rfl h
      | some d => exact ⟨d, rfl⟩
  | cons pr rest ih =>
    intro best _
    cases best with
    | none =>
      rw [greedyScan_cons_none]
      exact ih _ (Or.inr (by simp))
    | some d =>
      rw [greedyScan_cons_some]
      split <;> exact ih _ (Or.inr (by simp))

theorem greedyScan_mem (desired : List String) (w : List (String × Int))
    (g : String) :
    ∀ (rows : List (String × Row)) (best : Option Decision) (d : Decision),
      greedyScan desired w g rows best = some d →
      best = some d ∨ ∃ pr ∈ rows, d = mkDec desired w g pr := by
  intro rows
  induction rows with
  | nil =>
    intro best d h
    exact Or.inl h
  | cons pr rest ih =>
    intro best d h
    cases best with
    | none =>
      rw [greedyScan_cons_none] at h
      rcases ih _ d h with h' | ⟨pr', hpr', hd⟩
      · injection h' with h''
        exact Or.inr ⟨pr, List.mem_cons_self _ _, h''.symm⟩
      · exact Or.inr ⟨pr', List.mem_cons_of_mem _ hpr', hd⟩
    | some d0 =>
      rw [greedyScan_cons_some] at h
      by_cases hgt : (mkDec desired w g pr).score > d0.score
      · rw [if_pos hgt] at h
        rcases ih _ d h with h' | ⟨pr', hpr', hd⟩
        · injection h' with h''
          exact Or.inr ⟨pr, List.mem_cons_self _ _, h''.symm⟩
        · exact Or.inr ⟨pr', List.mem_cons_of_mem _ hpr', hd⟩
      · rw [if_neg hgt] at h
        rcases ih _ d h with h' | ⟨pr', hpr', hd⟩
        · exact Or.inl h'
        · exact Or.inr ⟨pr', List.mem_cons_of_mem _ hpr', hd⟩

theorem greedyScan_dominates (desired : List String) (w : List (String × Int))
    (g : String) :
    ∀ (rows : List (String × Row)) (best : Option Decision) (d : Decision),
      greedyScan desired w g rows best = some d →
      (∀ pr ∈ rows, (mkDec desired w g pr).score ≤ d.score)
      ∧ (∀ d0, best = some d0 → d0.score ≤ d.score) := by
  intro rows
  induction rows with
  | nil =>
    intro best d h
    refine ⟨by simp, ?_⟩
    intro d0 h0
    rw [greedyScan_nil] at h
    rw [h0] at h
    injection h with h'
    rw [h']
  | cons pr rest ih =>
    intro best d h
    have hstep : ∃ b', greedyScan desired w g (pr :: rest) best
          = greedyScan desired w g rest (some b')
        ∧ (mkDec desired w g pr).score ≤ b'.score
        ∧ (∀ d0, best = some d0 → d0.score ≤ b'.score) := by
      cases best with
      | none =>
        exact ⟨mkDec desired w g pr, greedyScan_cons_none .., le_refl _,
          by intro d0 h0; cases h0⟩
      | some d0 =>
        by_cases hgt : (mkDec desired w g pr).score > d0.score
        · refine ⟨mkDec desired w g pr,
            by rw [greedyScan_cons_some, if_pos hgt], le_refl _, ?_⟩
          intro d1 h1
          injection h1 with h1'
          subst h1'
          omega
        · refine ⟨d0, by rw [greedyScan_cons_some, if_neg hgt], by omega, ?_⟩
          intro d1 h1
          injection h1 with h1'
          subst h1'
          exact le_refl _
    obtain ⟨b', hb', hcand, hold⟩ := hstep
    rw [hb'] at h
    obtain ⟨hrest, hbest⟩ := ih (some b') d h
    refine ⟨?_, ?_⟩
    · intro pr' hpr'
      rcases List.mem_cons.mp hpr' with h' | h'
      · subst h'
        exact le_trans hcand (hbest b' rfl)
      · exact hrest pr' h'
    · intro d0 h0
      exact le_trans (hold d0 h0) (hbest b' rfl)

/-! ### Lemmas about categories and rows-by-category -/

theorem mem_addUnique (l : List String) (a x : String) :
    x ∈ addUnique l a ↔ x ∈ l ∨ x = a := by
  rw [addUnique]
  split
  · rename_i ha
    constructor
    · exact fun h => Or.inl h
    · intro h
      rcases h with h | h
      · exact h
      · exact h ▸ ha
  · simp [List.mem_append]

theorem mem_foldl_addUnique :
    ∀ (l acc : List String) (x : String),
      x ∈ l.foldl addUnique acc ↔ x ∈ acc ∨ x ∈ l := by
  intro l
  induction l with
  | nil => simp
  | cons a rest ih =>
    intro acc x
    rw [List.foldl_cons, ih, mem_addUnique]
    constructor
    · intro h
      rcases h with (h | h) | h
      · exact Or.inl h
      · exact Or.inr (h ▸ List.mem_cons_self _ _)
      · exact Or.inr (List.mem_cons_of_mem _ h)
    · intro h
      rcases h with h | h
      · exact Or.inl (Or.inl h)
      · rcases List.mem_cons.mp h with h' | h'
        · exact Or.inl (Or.inr h')
        · exact Or.inr h'

theorem nodup_addUnique (l : List String) (a : String) (h : l.Nodup) :
    (addUnique l a).Nodup := by
  rw [addUnique]
  split
  · exact h
  · rename_i ha
    simp [List.nodup_append, h, ha]

theorem nodup_foldl_addUnique :
    ∀ (l acc : List String), acc.Nodup → (l.foldl addUnique acc).Nodup := by
  intro l
  induction l with
  | nil => exact fun acc h => h
  | cons a rest ih =>
    intro acc h
    rw [List.foldl_cons]
    exact ih _ (nodup_addUnique acc a h)

theorem mem_get_all_groups (m : Matrix) (g : String) :
    g ∈ m.get_all_groups ↔ g ∈ m.row_groups.map Prod.snd := by
  rw [Matrix.get_all_groups, mem_foldl_addUnique]
  simp

theorem get_all_groups_nodup (m : Matrix) : m.get_all_groups.Nodup :=
  nodup_foldl_addUnique _ [] (by simp)

theorem rows_by_group_ne_nil (m : Matrix) (g : String)
    (hg : g ∈ m.get_all_groups) : m.get_rows_by_group g ≠ [] := by
  rcases List.mem_map.mp ((mem_get_all_groups m g).mp hg) with ⟨pr, hpr, hsnd⟩
  rw [Matrix.get_rows_by_group]
  intro hcontra
  rw [List.map_eq_nil] at hcontra
  have : pr ∈ m.row_groups.filter (fun pr => pr.2 = g) :=
    List.mem_filter.mpr ⟨hpr, by simp [hsnd]⟩
  rw [hcontra] at this
  simp at this

theorem rows_by_group_keys_nodup (m : Matrix) (g : String)
    (hnd : (m.row_groups.map Prod.fst).Nodup) :
    ((m.get_rows_by_group g).map Prod.fst).Nodup := by
  rw [Matrix.get_rows_by_group, List.map_map]
  have heq : (Prod.fst ∘ fun pr => (pr.1, (alGet m._rows pr.1).getD []))
      = (Prod.fst : String × String → String) := rfl
  rw [heq]
  exact hnd.sublist ((List.filter_sublist _).map Prod.fst)

theorem mem_rows_of_mem_rows_by_group (m : Matrix) (g : String)
    (hcover : ∀ p ∈ m.row_groups.map Prod.fst, p ∈ m._rows.map Prod.fst) :
    ∀ pr ∈ m.get_rows_by_group g, (pr.1, pr.2) ∈ m._rows := by
  intro pr hpr
  rw [Matrix.get_rows_by_group] at hpr
  rcases List.mem_map.mp hpr with ⟨q, hq, hpr_eq⟩
  have hkey : q.1 ∈ m.row_groups.map Prod.fst :=
    List.mem_map.mpr ⟨q, List.mem_of_mem_filter hq, rfl⟩
  rcases alGet_isSome m._rows q.1 (hcover _ hkey) with ⟨v, hv⟩
  have hpr2 : pr = (q.1, v) := by
    rw [← hpr_eq, hv, Option.getD_some]
  rw [hpr2]
  exact mem_of_alGet _ _ _ hv

theorem alGet_mem_rows_by_group (m : Matrix) (g : String) (p : String)
    (hnd : (m.row_groups.map Prod.fst).Nodup)
    (hp : p ∈ (m.get_rows_by_group g).map Prod.fst) :
    ∃ cols, alGet (m.get_rows_by_group g) p = some cols
      ∧ (p, cols) ∈ m.get_rows_by_group g := by
  rcases alGet_isSome _ p hp with ⟨cols, hcols⟩
  exact ⟨cols, hcols, mem_of_alGet _ _ _ hcols⟩

/-! ### Exchange argument for ILP optimality -/

theorem sum_update (g0 : String) (f f' : String → Int) :
    ∀ (l : List String), l.Nodup → g0 ∈ l →
      (∀ g ∈ l, g ≠ g0 → f g = f' g) →
      (l.map f').sum = (l.map f).sum + (f' g0 - f g0) := by
  intro l
  induction l with
  | nil =>
    intro _ h
    simp at h
  | cons a rest ih =>
    intro hnd hmem hagree
    simp only [List.nodup_cons] at hnd
    rw [List.map_cons, List.sum_cons, List.map_cons, List.sum_cons]
    by_cases ha : a = g0
    · subst ha
      have hrest : rest.map f' = rest.map f := by
        apply List.map_congr_left
        intro g hg
        exact (hagree g (List.mem_cons_of_mem _ hg)
          (fun h => hnd.1 (h ▸ hg))).symm
      rw [hrest]
      ring
    · have hg0 : g0 ∈ rest := by
        rcases List.mem_cons.mp hmem with h | h
        · exact absurd h.symm ha
        · exact h
      have hfa : f a = f' a := hagree a (List.mem_cons_self _ _) ha
      rw [← hfa, ih hnd.2 hg0
        (fun g hg hne => hagree g (List.mem_cons_of_mem _ hg) hne)]
      ring

/-! ### Totals -/

theorem total_score_filterMap (f : String → Option Decision) :
    ∀ (l : List String), (∀ g ∈ l, f g ≠ none) →
      total_score (l.filterMap f)
        = (l.map (fun g => ((f g).map Decision.score).getD 0)).sum := by
  intro l
  induction l with
  | nil => intro _; rfl
  | cons a rest ih =>
    intro h
    rw [List.filterMap_cons]
    cases ha : f a with
    | none => exact absurd ha (h a (List.mem_cons_self _ _))
    | some d =>
      rw [total_score, List.map_cons, List.sum_cons, List.map_cons, List.sum_cons,
        ha, Option.map_some', Option.getD_some]
      have := ih (fun g hg => h g (List.mem_cons_of_mem _ hg))
      rw [total_score] at this
      rw [this]

theorem total_score_ilp (m : Matrix) (desired : List String)
    (w : List (String × Int)) (sel : String → String) :
    total_score (ilp_decisions m desired w sel)
      = (m.get_all_groups.map (fun g =>
          ilpRowScore desired w ((alGet (m.get_rows_by_group g) (sel g)).getD []))).sum := by
  rw [total_score, ilp_decisions, List.map_map]
  rfl

/-! ### Claim C1: Greedy and Exact optimization -/

/-- Claim C1 — For every well-formed scoring matrix (duplicate-free pattern
and column keys, every categorized pattern having a row; every category in
`get_all_groups` then automatically has ≥ 1 pattern) and every weight map
whose values sum to at most 100 (with a duplicate-free desired-quality
list, as produced by `quality_weights.keys()`):
(1) Greedy selects, per category, a pattern whose documented row score
`Σ_{q ∈ desired} matrix[p][q]·weight[q]` (missing entries 0, i.e.
`ilpRowScore`) is the maximum over that category's patterns;
(2) any optimal solution of the Exact (ILP) formulation also attains, per
category, that maximum row score;
(3) Exact's total decision score is never less than Greedy's. -/
theorem C1_greedy_exact_optimal (m : Matrix) (desired : List String)
    (w : List (String × Int))
    (hgroups_nd : (m.row_groups.map Prod.fst).Nodup)
    (hcover : ∀ p ∈ m.row_groups.map Prod.fst, p ∈ m._rows.map Prod.fst)
    (hcols_nd : ∀ pr ∈ m._rows, ((pr.2 : Row).map Prod.fst).Nodup)
    (hdes : desired.Nodup)
    (hsum : (w.map Prod.snd).sum ≤ 100) :
    (∀ g ∈ m.get_all_groups, ∃ d,
        greedyScan desired w g (m.get_rows_by_group g) none = some d
        ∧ (∃ cols, (d.selected_pattern, cols) ∈ m.get_rows_by_group g
            ∧ d.score = ilpRowScore desired w cols)
        ∧ ∀ pr ∈ m.get_rows_by_group g, ilpRowScore desired w pr.2 ≤ d.score)
    ∧ (∀ sel, IlpOptimal m desired w sel → ∀ g ∈ m.get_all_groups,
        ∀ pr ∈ m.get_rows_by_group g,
          ilpRowScore desired w pr.2
            ≤ ilpRowScore desired w ((alGet (m.get_rows_by_group g) (sel g)).getD []))
    ∧ (∀ sel, IlpOptimal m desired w sel →
        total_score (greedy_decisions desired w m)
          ≤ total_score (ilp_decisions m desired w sel)) := by
  have hbridge : ∀ (g : String), ∀ pr ∈ m.get_rows_by_group g,
      (rowEval desired w pr.2).1 = ilpRowScore desired w pr.2 := by
    intro g pr hpr
    exact rowScore_bridge desired w pr.2 hdes
      (hcols_nd _ (mem_rows_of_mem_rows_by_group m g hcover pr hpr))
  have hgreedy : ∀ g ∈ m.get_all_groups, ∃ d,
      greedyScan desired w g (m.get_rows_by_group g) none = some d
      ∧ (∃ cols, (d.selected_pattern, cols) ∈ m.get_rows_by_group g
          ∧ d.score = ilpRowScore desired w cols)
      ∧ ∀ pr ∈ m.get_rows_by_group g, ilpRowScore desired w pr.2 ≤ d.score := by
    intro g hg
    obtain ⟨d, hd⟩ := greedyScan_some desired w g (m.get_rows_by_group g) none
      (Or.inl (rows_by_group_ne_nil m g hg))
    refine ⟨d, hd, ?_, ?_⟩
    · rcases greedyScan_mem desired w g _ none d hd with h' | ⟨pr, hpr, hdec⟩
      · cases h'
      · refine ⟨pr.2, ?_, ?_⟩
        · have hsel : d.selected_pattern = pr.1 := by
            rw [hdec]
            rfl
          rw [hsel]
          have : (pr.1, pr.2) = pr := rfl
          rw [this]
          exact hpr
        · have hscore : d.score = (rowEval desired w pr.2).1 := by
            rw [hdec]
            rfl
          rw [hscore]
          exact hbridge g pr hpr
    · intro pr hpr
      have hdom := (greedyScan_dominates desired w g _ none d hd).1 pr hpr
      have hmk : (mkDec desired w g pr).score = (rowEval desired w pr.2).1 := rfl
      rw [hmk, hbridge g pr hpr] at hdom
      exact hdom
  have hilp : ∀ sel, IlpOptimal m desired w sel → ∀ g ∈ m.get_all_groups,
      ∀ pr ∈ m.get_rows_by_group g,
        ilpRowScore desired w pr.2
          ≤ ilpRowScore desired w ((alGet (m.get_rows_by_group g) (sel g)).getD []) := by
    intro sel hopt g0 hg0 pr hpr
    obtain ⟨hfeas, hmax⟩ := hopt
    have hfeas' : Feasible m (Function.update sel g0 pr.1) := by
      intro g hg
      by_cases hgg : g = g0
      · subst hgg
        rw [Function.update_same]
        exact List.mem_map.mpr ⟨pr, hpr, rfl⟩
      · rw [Function.update_noteq hgg]
        exact hfeas g hg
    have hle := hmax (Function.update sel g0 pr.1) hfeas'
    rw [ilpObjective, ilpObjective] at hle
    have hagree : ∀ g ∈ m.get_all_groups, g ≠ g0 →
        (fun g => ilpRowScore desired w
          ((alGet (m.get_rows_by_group g) (sel g)).getD [])) g
        = (fun g => ilpRowScore desired w
          ((alGet (m.get_rows_by_group g) (Function.update sel g0 pr.1 g)).getD [])) g := by
      intro g _ hne
      simp only
      rw [Function.update_noteq hne]
    have hsum_eq := sum_update g0
      (fun g => ilpRowScore desired w ((alGet (m.get_rows_by_group g) (sel g)).getD []))
      (fun g => ilpRowScore desired w
        ((alGet (m.get_rows_by_group g) (Function.update sel g0 pr.1 g)).getD []))
      m.get_all_groups (get_all_groups_nodup m) hg0 hagree
    have halg : alGet (m.get_rows_by_group g0) pr.1 = some pr.2 := by
      apply alGet_of_mem_nodup
      · have : (pr.1, pr.2) = pr := rfl
        rw [this]
        exact hpr
      · exact rows_by_group_keys_nodup m g0 hgroups_nd
    have hf' : ilpRowScore desired w
        ((alGet (m.get_rows_by_group g0) (Function.update sel g0 pr.1 g0)).getD [])
        = ilpRowScore desired w pr.2 := by
      rw [Function.update_same, halg, Option.getD_some]
    simp only at hsum_eq
    rw [hf'] at hsum_eq
    omega
  refine ⟨hgreedy, hilp, ?_⟩
  intro sel hopt
  have hilp' := hilp sel hopt
  have hall : ∀ g ∈ m.get_all_groups,
      greedyScan desired w g (m.get_rows_by_group g) none ≠ none := by
    intro g hg
    obtain ⟨d, hd, _, _⟩ := hgreedy g hg
    rw [hd]
    simp
  rw [greedy_decisions, total_score_filterMap _ _ hall, total_score_ilp]
  apply List.sum_le_sum
  intro g hg
  obtain ⟨d, hd, ⟨cols, hcols_mem, hscore⟩, _⟩ := hgreedy g hg
  rw [hd, Option.map_some', Option.getD_some, hscore]
  exact hilp' g hg (d.selected_pattern, cols) hcols_mem

/-- Witness for C1: all hypotheses hold at the test-suite's sample matrix
with the weights of its greedy test; the greedy selection for the
`Deployment` category attains the maximum row score. -/
theorem C1_greedy_exact_optimal_witness :
    ∃ d, greedyScan ["Performance Efficiency", "Security"]
        [("Performance Efficiency", 50), ("Security", 50)] "Deployment"
        (sampleMatrix.get_rows_by_group "Deployment") none = some d
      ∧ (∃ cols, (d.selected_pattern, cols) ∈ sampleMatrix.get_rows_by_group "Deployment"
          ∧ d.score = ilpRowScore ["Performance Efficiency", "Security"]
              [("Performance Efficiency", 50), ("Security", 50)] cols)
      ∧ ∀ pr ∈ sampleMatrix.get_rows_by_group "Deployment",
          ilpRowScore ["Performance Efficiency", "Security"]
            [("Performance Efficiency", 50), ("Security", 50)] pr.2 ≤ d.score :=
  (C1_greedy_exact_optimal sampleMatrix
      ["Performance Efficiency", "Security"]
      [("Performance Efficiency", 50), ("Security", 50)]
      (by decide) (by decide) (by decide) (by decide) (by decide)).1
    "Deployment" (by decide)

end ARLO
